import Mathlib

/-! Shallow embedding of the atto lexer core from src/lex.ts: rule
compilation (buildRule, buildRules, compileLexer) and the scanning engine
(the generator function lex with its helpers makeToken and the per-step
rule loop), together with the concrete rule sets used to settle the
specification claims.

Conventions of the embedding:

* Input texts are lists of characters (all concrete inputs used are ASCII
  plus U+000A, where code units and code points coincide).
* A RegExp value is embedded as an Rx: its source and flags strings,
  which feed the toString-based flag check in buildRule, plus its match
  semantics: a function from input and offset to the length of the match
  that a sticky anchored-at-offset exec would produce, or none when exec
  returns null. Setting lastIndex to the offset and calling exec on a
  regex with the y flag attempts a match starting exactly at the offset;
  on success lastIndex becomes offset + length of the match.
* The lazy generator is embedded as a fuel-indexed function producing the
  finite list of all tokens it yields. The outcome fuelOut marks runs
  that do not finish within the given fuel (the loop in the source can
  actually diverge), and fault marks the InternalError thrown by
  assertDefined.
* The line and column decoration of tokens comes from createPosQuery in
  pos.ts, which the specification places outside the core as an external
  collaborator; no claim mentions lines or columns, so tokens here carry
  name, group, text and offset only.
-/

namespace Atto

/-- Token record from src/lex.ts lines 18 to 26, without the line and
column decoration produced by the external position lookup. -/
structure Token where
  name : String
  group : String
  text : String
  offset : Nat
  deriving DecidableEq, Repr

/-- An action takes a token and returns a token or null, lines 68 to 70. -/
abbrev Action := Token → Option Token

/-- The identity action used as default by specAction, line 258. -/
def identityAction : Action := fun t => some t

/-- Embedded RegExp value: source and flags as strings, plus the sticky
match-at-offset semantics of exec as described in the module comment. -/
structure Rx where
  source : String
  flags : String
  matcher : List Char → Nat → Option Nat

/-- The string produced by RegExp.prototype.toString: slash, source,
slash, flags. -/
def rxToString (r : Rx) : String :=
  "/" ++ r.source ++ "/" ++ r.flags

/-- Model of String.prototype.endsWith. -/
def jsEndsWith (s suffix : String) : Bool :=
  suffix.data.isSuffixOf s.data

/-- Compiled rule, lines 35 to 54. -/
structure Rule where
  name : String
  rx : Rx
  action : Action
  group : String
  push : Option String
  pop : Bool

/-- The compiled rule table, a JS object mapping group names to rule
arrays, kept in insertion order as an association list. -/
abbrev RuleTable := List (String × List Rule)

/-- JS object property lookup on the rule table. -/
def lookupGroup (g : String) : RuleTable → Option (List Rule)
  | [] => none
  | (n, rs) :: rest => if n = g then some rs else lookupGroup g rest

/-- Errors surfaced by the lexer module: LexError for compile errors,
LexEndedError after the FINAL token, InternalError for bugs, lines 89 to
102; and the SyntaxError that the RegExp constructor throws for an
invalid pattern, which compileLexer does not catch. -/
inductive LexErr where
  | lexError (msg : String)
  | lexEnded
  | internalError (msg : String)
  | rxSyntaxError (msg : String)
  deriving DecidableEq, Repr

/-! Character class helpers for the concrete regexes of the source. -/

/-- JS line terminators, which the dot of a regex does not match. -/
def isLineTerm (c : Char) : Bool :=
  c = '\n' || c = '\r' || c = '\u2028' || c = '\u2029'

/-- The JS whitespace class backslash-s: tab, line feed, vertical tab,
form feed, carriage return, space, no-break space, byte order mark, the
Unicode space separators and the line and paragraph separators. -/
def jsSpace (c : Char) : Bool :=
  c = ' ' || c = '\t' || c = '\n' || c = '\x0b' || c = '\x0c' || c = '\r'
    || c = '\u00a0' || c = '\u1680' || ('\u2000' ≤ c && c ≤ '\u200a')
    || c = '\u2028' || c = '\u2029' || c = '\u202f' || c = '\u205f'
    || c = '\u3000' || c = '\ufeff'

/-- Length of the longest run of characters satisfying p at the front. -/
def takeWhileLen (p : Char → Bool) : List Char → Nat
  | [] => 0
  | c :: rest => if p c then takeWhileLen p rest + 1 else 0

/-- Sticky semantics of a greedy one-or-more pattern over a character
class: the match length is the longest non-empty run of class characters
starting exactly at the offset, and a zero run is a failed match. -/
def matchPlus (p : Char → Bool) (s : List Char) (off : Nat) : Option Nat :=
  match takeWhileLen p (s.drop off) with
  | 0 => none
  | n + 1 => some (n + 1)

/-- Sticky semantics of a fully escaped literal pattern: it matches
exactly the literal, at the offset. -/
def matchLit (lit : List Char) (s : List Char) (off : Nat) : Option Nat :=
  if lit.isPrefixOf (s.drop off) then some lit.length else none

/-- Characters escaped by rxEsc, line 285: the listed metacharacters plus
the whitespace class. -/
def rxMeta (c : Char) : Bool :=
  "-[]\x7b\x7d()*+!<=?./\\^$|#,".contains c || jsSpace c

def rxEscChar (c : Char) : List Char :=
  if rxMeta c then ['\\', c] else [c]

def rxEscList : List Char → List Char
  | [] => []
  | c :: cs => rxEscChar c ++ rxEscList cs

/-- rxEsc, lines 284 to 286: escape every metacharacter of the string. -/
def rxEsc (s : String) : String :=
  ⟨rxEscList s.data⟩

/-- Characters whose backslash escape is valid in a v-flagged (unicode
mode) pattern outside a character class: the regex syntax characters and
the slash. Escaping any other character is a SyntaxError under the v
flag. -/
def vValidEscape (c : Char) : Bool :=
  "^$\\.*+?()[]\x7b\x7d|/".contains c

/-- toRx, lines 304 to 306: compile an escaped literal string into a
sticky regex with flags vy via the RegExp constructor. rxEsc escapes
every metacharacter of its list, but under the v flag only the syntax
characters and the slash may be identity-escaped, so when the literal
contains any other escaped character (dash, bang, angle brackets, equals
sign, hash, comma or whitespace) the constructor throws a SyntaxError
instead of returning a regex. An accepted literal matches the string
verbatim. -/
def toRx (lit : String) : Except LexErr Rx :=
  if lit.data.all (fun c => ! rxMeta c || vValidEscape c) then
    .ok { source := rxEsc lit, flags := "vy", matcher := matchLit lit.data }
  else
    .error (.rxSyntaxError ("invalid escape in unicode mode in " ++ rxEsc lit))

/-! Specs, lines 59 to 87: a spec is an array whose element 0 is the rule
name and whose later elements may be a RegExp, the POP symbol, a push
target string, or an action function. -/

inductive SpecItem where
  | str (s : String)
  | rx (r : Rx)
  | pop
  | act (a : Action)

abbrev Spec := List SpecItem

abbrev Specs := List (String × List Spec)

def itemStr : SpecItem → Option String
  | .str s => some s
  | _ => none

def itemRx : SpecItem → Option Rx
  | .rx r => some r
  | _ => none

def itemAct : SpecItem → Option Action
  | .act a => some a
  | _ => none

def isPopItem : SpecItem → Bool
  | .pop => true
  | _ => false

/-- specPop, lines 247 to 249: element 1 or element 2 is the POP symbol. -/
def specPop (sp : Spec) : Bool :=
  ((sp.get? 1).map isPopItem).getD false || ((sp.get? 2).map isPopItem).getD false

/-- specPush, lines 251 to 255: the first of elements 1 and 2 that is a
string, else null. -/
def specPush (sp : Spec) : Option String :=
  ((sp.get? 1).bind itemStr) <|> ((sp.get? 2).bind itemStr)

/-- specAction, lines 257 to 262: the first function element of the spec,
else the identity action. -/
def specAction (sp : Spec) : Action :=
  ((sp.filterMap itemAct).head?).getD identityAction

/-- Element 0 of the spec, its name, line 265. -/
def specName (sp : Spec) : String :=
  ((sp.get? 0).bind itemStr).getD ""

/-- The regex of the spec, line 269: element 1 when it is a RegExp, else
the name compiled by toRx (short-circuit: toRx runs only when element 1
is not a RegExp, and may throw). -/
def specRx (sp : Spec) : Except LexErr Rx :=
  match (sp.get? 1).bind itemRx with
  | some r => .ok r
  | none => toRx (specName sp)

/-- buildRule, lines 264 to 275: lower a spec to a rule, propagating the
SyntaxError a literal spec may raise in the RegExp constructor and
rejecting a regex whose toString does not end in slash-v-y. -/
def buildRule (sp : Spec) (group : String) : Except LexErr Rule :=
  let name := specName sp
  let pop := specPop sp
  let push := specPush sp
  let action := specAction sp
  match specRx sp with
  | .error e => .error e
  | .ok rx =>
    if jsEndsWith (rxToString rx) "/vy" then
      .ok { name := name, rx := rx, action := action, group := group,
            push := push, pop := pop }
    else
      .error (.lexError ("invald regex flags for " ++ name ++ " in " ++ group))

/-- The catch-all rule for unexpected text, lines 105 to 112. Its pattern
is dot-plus with flags vy; the dot does not match line terminators. Its
action is the identity and its pop flag is set. -/
def INVALID : Rule :=
  { name := "INVALID"
    rx := { source := ".+", flags := "vy",
            matcher := matchPlus (fun c => ! isLineTerm c) }
    action := identityAction
    group := "ALL"
    push := none
    pop := true }

/-- Lower one group of specs in declared order, short-circuiting at the
first compile error. -/
def buildGroup (group : String) : List Spec → Except LexErr (List Rule)
  | [] => .ok []
  | sp :: rest =>
    match buildRule sp group with
    | .error e => .error e
    | .ok r =>
      match buildGroup group rest with
      | .error e => .error e
      | .ok rs => .ok (r :: rs)

/-- Lower every group, preserving declaration order of the groups. -/
def buildGroups : Specs → Except LexErr RuleTable
  | [] => .ok []
  | (n, g) :: rest =>
    match buildGroup n g with
    | .error e => .error e
    | .ok rg =>
      match buildGroups rest with
      | .error e => .error e
      | .ok rs => .ok ((n, rg) :: rs)

/-- Concatenation of all rule arrays of the table, in order: the rules
that the push check of buildRules walks over. -/
def groupsFlat : RuleTable → List Rule
  | [] => []
  | (_, g) :: rest => g ++ groupsFlat rest

/-- A rule's push target resolves in the table, lines 231 to 234. -/
def pushOk (rules : RuleTable) (r : Rule) : Bool :=
  match r.push with
  | none => true
  | some t => (lookupGroup t rules).isSome

/-- The first rule whose push target does not resolve, if any. -/
def badPushRule (rules : RuleTable) : Option Rule :=
  (groupsFlat rules).find? (fun r => ! pushOk rules r)

/-- buildRules, lines 216 to 245: lower all groups, treat the group named
ALL as the applies-everywhere list, append the INVALID catch-all to that
list, and validate every push target. -/
def buildRulesE (specs : Specs) : Except LexErr (RuleTable × List Rule) :=
  match buildGroups specs with
  | .error e => .error e
  | .ok built =>
    let allDecl := (lookupGroup "ALL" built).getD []
    let ruleGroupAll := allDecl ++ [INVALID]
    let rules := built.map (fun p => if p.1 = "ALL" then ("ALL", ruleGroupAll) else p)
    match badPushRule rules with
    | some r =>
      .error (.lexError ("no push " ++ r.push.getD "" ++ " found for "
        ++ r.name ++ " in " ++ r.group))
    | none => .ok (rules, ruleGroupAll)

/-- The compiled lexer, lines 6 to 11 and 132 to 138: the rule table, the
applies-everywhere list, the start group (first key of the table) and the
debug state. The debug state is true exactly when the closed-over dbg
variable is the dbgEnabled function. -/
structure CompiledLexer where
  rules : RuleTable
  ruleGroupAll : List Rule
  start : String
  dbg : Bool

instance : Inhabited CompiledLexer := ⟨⟨[], [], "", false⟩⟩

/-- compileLexer, lines 119 to 138: build the rules, take the first group
key as start group (an empty table is a compile error), and initialize
the debug state from the opt argument. -/
def compileLexer (specs : Specs) (opt : Bool) : Except LexErr CompiledLexer :=
  match buildRulesE specs with
  | .error e => .error e
  | .ok (rules, ruleGroupAll) =>
    match rules.head? with
    | none => .error (.lexError "empty spec")
    | some (start, _) =>
      .ok { rules := rules, ruleGroupAll := ruleGroupAll,
            start := start, dbg := opt }

/-- The dbg getter, line 136: the state compares the closed-over function
against dbgEnabled. -/
def getDbg (l : CompiledLexer) : Bool := l.dbg

/-- The dbg setter, line 137: the source evaluates the conditional
expression opt question-mark dbgEnabled colon dbgDisabled but never
assigns its result to the closed-over dbg variable, so the state is left
unchanged. -/
def setDbg (l : CompiledLexer) (opt : Bool) : CompiledLexer :=
  let _ := if opt then true else false
  l

/-- makeToken, lines 158 to 164: spread the rule (contributing its name
and group), then offset and text; line and column come from the external
position query and are omitted here. -/
def candToken (r : Rule) (s : List Char) (off n : Nat) : Token :=
  { name := r.name, group := r.group, text := ⟨(s.drop off).take n⟩,
    offset := off }

/-- The FINAL token yielded after the scan loop, line 209. -/
def finalToken (off : Nat) : Token :=
  { name := "FINAL", group := "FINAL", text := "", offset := off }

/-- Result of one pass of the for loop over the effective rule sequence,
lines 180 to 206: either the loop fell through without yielding (every
rule failed to match, matched empty, or had its token discarded by the
action), or some rule yielded a token, with the new offset and the pop
and push transitions to apply. -/
inductive TryResult where
  | fellThrough
  | yielded (t : Token) (newOffset : Nat) (doPop : Bool) (push : Option String)
  deriving DecidableEq, Repr

/-- The for loop over the effective rule sequence, lines 180 to 206: try
each rule at the offset; skip it when exec fails or matches empty, build
the candidate token and apply the action on a match, skip to the NEXT
RULE AT THE SAME OFFSET when the action returns null, and otherwise yield
with the offset advanced past the match. -/
def tryRules (l : List Rule) (s : List Char) (offset : Nat) : TryResult :=
  match l with
  | [] => .fellThrough
  | r :: rest =>
    match r.rx.matcher s offset with
    | none => tryRules rest s offset
    | some 0 => tryRules rest s offset
    | some (n + 1) =>
      match r.action (candToken r s offset (n + 1)) with
      | none => tryRules rest s offset
      | some t => .yielded t (offset + (n + 1)) r.pop r.push

/-- Outcome of running the generator to exhaustion: the list of all
yielded tokens, an InternalError fault from assertDefined, or fuel
exhaustion for runs that do not finish (the while loop of the source
repeats with unchanged state when no rule yields). -/
inductive LexOutcome where
  | tokens (ts : List Token)
  | fault
  | fuelOut
  deriving DecidableEq, Repr

/-- The generator function lex, lines 154 to 212, as a fuel-indexed step
function. Each while iteration: stop when the offset reached the end of
the text; break out when the stack is empty; look up the current group
(assertDefined faults when it is missing); run the for loop over the
current group's rules followed by the applies-everywhere list; when a
rule yielded, emit the token, then shift the stack on pop and unshift the
push target on push; when the for loop fell through, repeat with
unchanged offset and stack. After the loop one FINAL token is yielded. -/
def lexLoop (rules : RuleTable) (ruleGroupAll : List Rule) (s : List Char) :
    Nat → Nat → List String → LexOutcome
  | 0, _, _ => .fuelOut
  | fuel + 1, offset, stack =>
    if offset < s.length then
      match stack.head? with
      | none => .tokens [finalToken offset]
      | some currLexer =>
        match lookupGroup currLexer rules with
        | none => .fault
        | some curr =>
          match tryRules (curr ++ ruleGroupAll) s offset with
          | .fellThrough => lexLoop rules ruleGroupAll s fuel offset stack
          | .yielded t newOffset doPop push =>
            let stack1 := if doPop then stack.tail else stack
            let stack2 := match push with
              | some g => g :: stack1
              | none => stack1
            match lexLoop rules ruleGroupAll s fuel newOffset stack2 with
            | .tokens ts => .tokens (t :: ts)
            | o => o
    else .tokens [finalToken offset]

/-- tokenizerBuilder, lines 140 to 152: a tokenizer runs lex over the
text with the single-element stack holding the start group. The opt
argument only reassigns the debug sink and does not reach lex. -/
def tokenize (l : CompiledLexer) (s : List Char) (fuel : Nat) : LexOutcome :=
  lexLoop l.rules l.ruleGroupAll s fuel 0 [l.start]

/-- Token stream with the debug toggle of the tokenizer builder: the opt
argument selects the debug sink, which only prints, so the produced
tokens are those of tokenize. -/
def tokenizeWithDbg (l : CompiledLexer) (opt : Bool) (s : List Char)
    (fuel : Nat) : LexOutcome :=
  let _ := opt
  tokenize l s fuel

/-- nextToken, lines 145 to 149: the k-th call to nextToken on a stream
whose generator yields the token list ts returns the k-th token, and
throws LexEndedError once the generator is done. -/
def nextToken (ts : List Token) (k : Nat) : Except LexErr Token :=
  match ts.get? k with
  | some t => .ok t
  | none => .error .lexEnded

/-- Concatenation of the text fields of a token list. -/
def textConcat : List Token → List Char
  | [] => []
  | t :: ts => t.text.data ++ textConcat ts

/-- All rules the engine can ever try: the rules of every group of the
table plus the applies-everywhere list. -/
def rulesFlat (rules : RuleTable) (all : List Rule) : List Rule :=
  groupsFlat rules ++ all

/-! Concrete rule sets used by the claims. -/

/-- Regex of one-or-more digits with flags vy. -/
def numRx : Rx :=
  { source := "[0-9]+", flags := "vy", matcher := matchPlus (fun c => c.isDigit) }

/-- Regex of one-or-more spaces with flags vy. -/
def wsRx : Rx :=
  { source := " +", flags := "vy", matcher := matchPlus (fun c => c = ' ') }

/-- Regex of one-or-more letters a with flags vy. -/
def aRx : Rx :=
  { source := "a+", flags := "vy", matcher := matchPlus (fun c => c = 'a') }

/-- Regex of one-or-more digits with the sticky flag y alone. -/
def numRxStickyOnly : Rx :=
  { source := "[0-9]+", flags := "y", matcher := matchPlus (fun c => c.isDigit) }

/-- The skip action: always return null. -/
def skipAction : Action := fun _ => none

/-- Specs of the scenario of claim C1: a single context main with a NUM
rule for digit runs and a WS rule for space runs whose action skips. -/
def c1Specs : Specs :=
  [("main", [[SpecItem.str "NUM", SpecItem.rx numRx],
             [SpecItem.str "WS", SpecItem.rx wsRx, SpecItem.act skipAction]])]

def c1Lexer : CompiledLexer :=
  (compileLexer c1Specs false).toOption.getD default

/-- Specs with a single context main holding one rule A matching runs of
the letter a, with the identity action. -/
def aSpecs : Specs :=
  [("main", [[SpecItem.str "A", SpecItem.rx aRx]])]

def aLexer : CompiledLexer :=
  (compileLexer aSpecs false).toOption.getD default

/-- The rule built for A in aSpecs. -/
def aRuleA : Rule :=
  { name := "A", rx := aRx, action := identityAction, group := "main",
    push := none, pop := false }

/-- The WS rule of the compiled C1 lexer. -/
def c1WS : Rule :=
  ((((lookupGroup "main" c1Lexer.rules).getD []).get? 1).getD INVALID)

/-- The token sequence the code actually produces on the C1 scenario. -/
def c1TokenList : List Token :=
  [{ name := "NUM", group := "main", text := "12", offset := 0 },
   { name := "INVALID", group := "ALL", text := " 34", offset := 2 },
   { name := "FINAL", group := "FINAL", text := "", offset := 5 }]

/-- The rule table and applies-everywhere list built from the C1 specs. -/
def c1Built : RuleTable × List Rule :=
  (buildRulesE c1Specs).toOption.getD ([], [])

/-- JS object property lookup on the specs table. -/
def lookupSpecs (g : String) : Specs → Option (List Spec)
  | [] => none
  | (n, sps) :: rest => if n = g then some sps else lookupSpecs g rest

/-- A spec lowers without error exactly when its regex construction does
not throw and the toString of the regex ends in slash-v-y. -/
def specOk (sp : Spec) : Bool :=
  match specRx sp with
  | .error _ => false
  | .ok rx => jsEndsWith (rxToString rx) "/vy"

/-! Shared properties of the matchers and the engine. -/

/-- A matcher never produces a non-empty match reaching past the end of
the input; this is true of every regex exec and of both matcher builders
of this file. -/
def matcherBounded (r : Rule) : Prop :=
  ∀ (s : List Char) (off n : Nat), 0 < n → r.rx.matcher s off = some n →
    off + n ≤ s.length

theorem takeWhileLen_le (p : Char → Bool) : ∀ l : List Char, takeWhileLen p l ≤ l.length
  | [] => Nat.le_refl 0
  | c :: rest => by
    simp only [takeWhileLen, List.length_cons]
    by_cases h : p c
    · simp only [if_pos h]
      exact Nat.succ_le_succ (takeWhileLen_le p rest)
    · simp only [if_neg h]
      exact Nat.zero_le _

theorem matchPlus_bounded (p : Char → Bool) (s : List Char) (off n : Nat)
    (h : matchPlus p s off = some n) : off + n ≤ s.length := by
  unfold matchPlus at h
  split at h
  · exact absurd h (by simp)
  · next m heq =>
    injection h with h'
    subst h'
    have hle := takeWhileLen_le p (s.drop off)
    rw [heq, List.length_drop] at hle
    omega

theorem matchLit_bounded (lit : List Char) (s : List Char) (off n : Nat)
    (hn : 0 < n) (h : matchLit lit s off = some n) : off + n ≤ s.length := by
  unfold matchLit at h
  split at h
  · next hpre =>
    injection h with h'
    subst h'
    have hp : lit <+: s.drop off := by
      exact List.isPrefixOf_iff_prefix.mp hpre
    have hle := hp.length_le
    rw [List.length_drop] at hle
    omega
  · exact absurd h (by simp)

/-- The for loop decides on the first segment of an appended rule list
whenever that segment yields; only when it falls all the way through are
the rules of the second segment tried. -/
theorem tryRules_append (l₁ l₂ : List Rule) (s : List Char) (off : Nat) :
    tryRules (l₁ ++ l₂) s off =
      match tryRules l₁ s off with
      | .fellThrough => tryRules l₂ s off
      | r => r := by
  induction l₁ with
  | nil => simp [tryRules]
  | cons r rest ih =>
    simp only [List.cons_append, tryRules]
    cases hm : r.rx.matcher s off with
    | none => simp only [hm]; exact ih
    | some n =>
      cases n with
      | zero => simp only [hm]; exact ih
      | succ m =>
        simp only [hm]
        cases ha : r.action (candToken r s off (m + 1)) with
        | none => simp only [ha]; exact ih
        | some t => simp only [ha]

/-- Every token the for loop yields is the output of the action of one of
the rules of the sequence. -/
theorem tryRules_yield_from_action (l : List Rule) (s : List Char) (off : Nat)
    (t : Token) (no : Nat) (dp : Bool) (pu : Option String)
    (h : tryRules l s off = .yielded t no dp pu) :
    ∃ r, r ∈ l ∧ ∃ cand, r.action cand = some t := by
  induction l with
  | nil => simp [tryRules] at h
  | cons r rest ih =>
    simp only [tryRules] at h
    split at h
    · obtain ⟨r', hmem, hc⟩ := ih h
      exact ⟨r', List.mem_cons_of_mem _ hmem, hc⟩
    · obtain ⟨r', hmem, hc⟩ := ih h
      exact ⟨r', List.mem_cons_of_mem _ hmem, hc⟩
    · split at h
      · obtain ⟨r', hmem, hc⟩ := ih h
        exact ⟨r', List.mem_cons_of_mem _ hmem, hc⟩
      · rename_i t2 ha
        injection h with h1 h2 h3 h4
        subst h1
        exact ⟨r, List.mem_cons_self r rest, _, ha⟩

/-- When every rule of the sequence carries the identity action and a
bounded matcher, a pass of the for loop either falls through or yields
the candidate token of the first matching rule, covering exactly the
matched slice and advancing the offset by its length. -/
theorem tryRules_identity (l : List Rule) (s : List Char) (off : Nat)
    (hid : ∀ r ∈ l, r.action = identityAction)
    (hbd : ∀ r ∈ l, matcherBounded r) :
    tryRules l s off = .fellThrough ∨
      ∃ r m, r ∈ l ∧ off + (m + 1) ≤ s.length ∧
        tryRules l s off =
          .yielded (candToken r s off (m + 1)) (off + (m + 1)) r.pop r.push := by
  induction l with
  | nil => exact Or.inl rfl
  | cons r rest ih =>
    have hid' : ∀ x ∈ rest, x.action = identityAction :=
      fun x hx => hid x (List.mem_cons_of_mem _ hx)
    have hbd' : ∀ x ∈ rest, matcherBounded x :=
      fun x hx => hbd x (List.mem_cons_of_mem _ hx)
    simp only [tryRules]
    cases hm : r.rx.matcher s off with
    | none =>
      rcases ih hid' hbd' with h | ⟨r', m, hmem, hb, heq⟩
      · exact Or.inl h
      · exact Or.inr ⟨r', m, List.mem_cons_of_mem _ hmem, hb, heq⟩
    | some n =>
      cases n with
      | zero =>
        rcases ih hid' hbd' with h | ⟨r', m, hmem, hb, heq⟩
        · exact Or.inl h
        · exact Or.inr ⟨r', m, List.mem_cons_of_mem _ hmem, hb, heq⟩
      | succ m =>
        rw [hid r (List.mem_cons_self r rest)]
        refine Or.inr ⟨r, m, List.mem_cons_self r rest, ?_, rfl⟩
        exact hbd r (List.mem_cons_self r rest) s off (m + 1) (Nat.succ_pos m) hm

/-- A member of a looked-up rule group is a member of the flattened
table. -/
theorem lookupGroup_sub (g : String) (t : RuleTable) (rs : List Rule)
    (h : lookupGroup g t = some rs) : ∀ r ∈ rs, r ∈ groupsFlat t := by
  induction t with
  | nil => simp [lookupGroup] at h
  | cons p rest ih =>
    obtain ⟨n, grp⟩ := p
    simp only [lookupGroup] at h
    by_cases hn : n = g
    · rw [if_pos hn] at h
      injection h with h
      subst h
      intro r hr
      simp only [groupsFlat]
      exact List.mem_append_left _ hr
    · rw [if_neg hn] at h
      intro r hr
      simp only [groupsFlat]
      exact List.mem_append_right _ (ih h r hr)

/-- On the input holding a single newline, the aSpecs lexer loops forever:
no rule of the effective sequence matches at offset 0 (the catch-all dot
does not match a line terminator), and the while loop repeats with
unchanged offset and stack. -/
theorem aLexer_spin :
    ∀ fuel, lexLoop aLexer.rules aLexer.ruleGroupAll (String.data "\n")
      fuel 0 ["main"] = .fuelOut := by
  intro fuel
  induction fuel with
  | zero => rfl
  | succ n ih => exact ih

/-! Claim theorems. -/

/-- Claim C1, counterexample: on the C1 scenario specs and the input
12-space-34, the code does not produce the claimed token NUM 34 at
offset 3 (nor any NUM token with text 34): the skip action of WS does not
advance the offset, so the catch-all INVALID consumes the space together
with the digits. -/
theorem C1_counterexample :
    tokenize c1Lexer (String.data "12 34") 10 = .tokens c1TokenList
    ∧ (∀ t ∈ c1TokenList, ¬ (t.name = "NUM" ∧ t.text = "34")) := by
  refine ⟨rfl, ?_⟩
  decide

/-- Claim C1, amended: tokenizing 12-space-34 with the C1 scenario specs
yields NUM 12 at offset 0, then INVALID with text space-3-4 at offset 2
in group ALL (popping the lone context), then FINAL with empty text at
offset 5, and no other tokens. -/
theorem C1_actual_tokens :
    tokenize c1Lexer (String.data "12 34") 10 = .tokens c1TokenList := rfl

/-- Claim C2, counterexample: at offset 2 of the C1 run the WS rule
matches the space with length 1 and its action returns null, yet the
engine does not advance the offset past the match: the step instead tries
the remaining rules at offset 2 and yields the catch-all token INVALID
with text space-3-4 AT OFFSET 2 (advancing to 5), not a token at
offset 3. -/
theorem C2_counterexample :
    c1WS.rx.matcher (String.data "12 34") 2 = some 1
    ∧ c1WS.action (candToken c1WS (String.data "12 34") 2 1) = none
    ∧ tryRules (((lookupGroup "main" c1Lexer.rules).getD []) ++ c1Lexer.ruleGroupAll)
        (String.data "12 34") 2
        = .yielded { name := "INVALID", group := "ALL", text := " 34", offset := 2 }
            5 true none := ⟨rfl, rfl, rfl⟩

/-- Claim C2, amended: when a rule matches with non-empty length and its
action returns null, the engine yields no token for that match, leaves
the context stack AND the cursor offset unchanged, and continues with the
next rule of the effective sequence at the same offset (the matched text
is not consumed). -/
theorem C2_skip_same_offset (r : Rule) (rest : List Rule) (s : List Char)
    (off n : Nat) (hm : r.rx.matcher s off = some (n + 1))
    (ha : r.action (candToken r s off (n + 1)) = none) :
    tryRules (r :: rest) s off = tryRules rest s off := by
  simp only [tryRules, hm, ha]

/-- Witness for claim C2 at the WS rule of the C1 scenario. -/
theorem C2_witness :
    tryRules (c1WS :: [INVALID]) (String.data "12 34") 2
      = tryRules [INVALID] (String.data "12 34") 2 :=
  C2_skip_same_offset c1WS [INVALID] (String.data "12 34") 2 0 rfl rfl

/-- Claim C3: refuted by evaluation; with the single rule A over runs of
the letter a, the input holding one newline makes the scan loop run
forever (no fuel suffices), because no rule and in particular not the
catch-all dot-plus matches a line terminator, and a step that matches
nothing repeats with unchanged offset and stack. -/
theorem C3_scan_diverges :
    ∀ fuel, tokenize aLexer (String.data "\n") fuel = .fuelOut := by
  intro fuel
  exact aLexer_spin fuel

/-- Claim C4: refuted by evaluation; at offset 0 of the newline input,
within the input and with a non-empty context stack, NO rule of the
effective sequence matches (the catch-all fails on a line terminator),
and the engine neither surfaces an internal fault nor any error: it
silently loops forever. -/
theorem C4_no_match_silent_loop :
    0 < (String.data "\n").length
    ∧ tryRules (((lookupGroup "main" aLexer.rules).getD []) ++ aLexer.ruleGroupAll)
        (String.data "\n") 0 = .fellThrough
    ∧ (∀ fuel, tokenize aLexer (String.data "\n") fuel = .fuelOut) :=
  ⟨Nat.succ_pos 0, rfl, fun fuel => aLexer_spin fuel⟩

/-- Claim C9: the debug setter of the compiled lexer is a no-op (the
source evaluates the conditional but never assigns it), so assigning true
to the toggle of a lexer compiled with debugging off leaves the state
false; the token output is independent of the toggle, which only selects
the print sink. -/
theorem C9_dbg_setter_noop :
    (∀ (l : CompiledLexer) (b : Bool), setDbg l b = l)
    ∧ getDbg (setDbg c1Lexer true) = false
    ∧ (∀ (l : CompiledLexer) (s : List Char) (fuel : Nat) (b₁ b₂ : Bool),
        tokenizeWithDbg l b₁ s fuel = tokenizeWithDbg l b₂ s fuel) :=
  ⟨fun _ _ => rfl, rfl, fun _ _ _ _ _ => rfl⟩

/-- Claim C5, amended: for any rule table whose rules all carry the
identity transform and bounded matchers, a terminating scan started at
offset k yields tokens whose concatenated texts equal exactly the slice
of the input from k up to the offset of the terminal FINAL token, with no
gaps and no overlaps. Coverage of the WHOLE input can fail: the
catch-all pops the lone context, and with the stack empty scanning ends
at the current offset even when input remains (see the counterexample
below). -/
theorem C5_coverage_up_to_final (rules : RuleTable) (all : List Rule)
    (hid : ∀ r ∈ rulesFlat rules all, r.action = identityAction)
    (hbd : ∀ r ∈ rulesFlat rules all, matcherBounded r)
    (s : List Char) :
    ∀ (fuel k : Nat) (stack : List String) (ts : List Token),
      k ≤ s.length →
      lexLoop rules all s fuel k stack = .tokens ts →
      ∃ ts₀ off, ts = ts₀ ++ [finalToken off] ∧ k ≤ off ∧ off ≤ s.length ∧
        textConcat ts₀ = (s.drop k).take (off - k) := by
  intro fuel
  induction fuel with
  | zero =>
    intro k stack ts hk h
    simp only [lexLoop] at h
    exact LexOutcome.noConfusion h
  | succ n ih =>
    intro k stack ts hk h
    simp only [lexLoop] at h
    by_cases hlt : k < s.length
    · simp only [if_pos hlt] at h
      cases hstk : stack.head? with
      | none =>
        simp only [hstk] at h
        injection h with h
        refine ⟨[], k, h.symm ▸ rfl, Nat.le_refl k, hk, ?_⟩
        simp [textConcat]
      | some g =>
        simp only [hstk] at h
        cases hlg : lookupGroup g rules with
        | none =>
          simp only [hlg] at h
          exact LexOutcome.noConfusion h
        | some curr =>
          simp only [hlg] at h
          have hsub : ∀ r ∈ curr ++ all, r ∈ rulesFlat rules all := by
            intro r hr
            rcases List.mem_append.mp hr with h1 | h2
            · exact List.mem_append_left _ (lookupGroup_sub g rules curr hlg r h1)
            · exact List.mem_append_right _ h2
          rcases tryRules_identity (curr ++ all) s k
              (fun r hr => hid r (hsub r hr)) (fun r hr => hbd r (hsub r hr)) with
            htr | ⟨r, m, hmem, hb, htr⟩
          · simp only [htr] at h
            exact ih k stack ts hk h
          · simp only [htr] at h
            split at h
            · rename_i ts' hrec
              injection h with h
              subst h
              obtain ⟨ts₀, off, hts, hko, holen, hcov⟩ :=
                ih (k + (m + 1)) _ ts' (by omega) hrec
              subst hts
              refine ⟨candToken r s k (m + 1) :: ts₀, off, rfl, by omega, holen, ?_⟩
              have h1 : off - k = (m + 1) + (off - (k + (m + 1))) := by omega
              calc textConcat (candToken r s k (m + 1) :: ts₀)
                  = (s.drop k).take (m + 1) ++ textConcat ts₀ := rfl
                _ = (s.drop k).take (m + 1)
                      ++ ((s.drop k).drop (m + 1)).take (off - (k + (m + 1))) := by
                    rw [hcov, List.drop_drop]
                _ = (s.drop k).take ((m + 1) + (off - (k + (m + 1)))) :=
                    (List.take_add _ _ _).symm
                _ = (s.drop k).take (off - k) := by rw [← h1]
            · rename_i hne
              exact absurd h (hne ts)
    · simp only [if_neg hlt] at h
      injection h with h
      refine ⟨[], k, h.symm ▸ rfl, Nat.le_refl k, hk, ?_⟩
      simp [textConcat]

/-- Every action of the aSpecs lexer is the identity. -/
theorem aLexer_actions_id :
    ∀ r ∈ rulesFlat aLexer.rules aLexer.ruleGroupAll, r.action = identityAction := by
  have hflat : rulesFlat aLexer.rules aLexer.ruleGroupAll = [aRuleA, INVALID] := rfl
  intro r hr
  rw [hflat] at hr
  rcases List.mem_cons.mp hr with h | h
  · subst h
    rfl
  · rcases List.mem_cons.mp h with h2 | h2
    · subst h2
      rfl
    · exact absurd h2 (List.not_mem_nil r)

/-- Every matcher of the aSpecs lexer is bounded. -/
theorem aLexer_matchers_bounded :
    ∀ r ∈ rulesFlat aLexer.rules aLexer.ruleGroupAll, matcherBounded r := by
  have hflat : rulesFlat aLexer.rules aLexer.ruleGroupAll = [aRuleA, INVALID] := rfl
  intro r hr
  rw [hflat] at hr
  rcases List.mem_cons.mp hr with h | h
  · subst h
    intro s off n hn hm
    exact matchPlus_bounded _ s off n hm
  · rcases List.mem_cons.mp h with h2 | h2
    · subst h2
      intro s off n hn hm
      exact matchPlus_bounded _ s off n hm
    · exact absurd h2 (List.not_mem_nil r)

/-- Witness for claim C5 at the aSpecs lexer on the input ab. -/
theorem C5_witness :
    ∃ ts₀ off,
      ([{ name := "A", group := "main", text := "a", offset := 0 },
        { name := "INVALID", group := "ALL", text := "b", offset := 1 },
        finalToken 2] : List Token) = ts₀ ++ [finalToken off]
      ∧ 0 ≤ off ∧ off ≤ (String.data "ab").length
      ∧ textConcat ts₀ = ((String.data "ab").drop 0).take (off - 0) :=
  C5_coverage_up_to_final aLexer.rules aLexer.ruleGroupAll
    aLexer_actions_id aLexer_matchers_bounded (String.data "ab")
    10 0 ["main"] _ (Nat.zero_le _) rfl

/-- Claim C5, counterexample: with the single identity-transform context
of aSpecs plus the synthetic catch-all, on input b-newline-a the produced
tokens are INVALID b at offset 0 and FINAL at offset 1 only: the catch-all
matched b (stopping at the line terminator) and popped the lone context,
ending the scan with input remaining, so the concatenated texts do not
equal the input. -/
theorem C5_counterexample :
    tokenize aLexer (String.data "b\na") 10
      = .tokens [{ name := "INVALID", group := "ALL", text := "b", offset := 0 },
                 finalToken 1]
    ∧ textConcat [{ name := "INVALID", group := "ALL", text := "b", offset := 0 }]
        ≠ String.data "b\na" := by
  refine ⟨rfl, ?_⟩
  decide

/-- Structure of every terminating run: the yielded sequence is some
tokens produced by rule actions followed by exactly one terminal FINAL
token appended by the engine after the loop. -/
theorem lexLoop_shape (rules : RuleTable) (all : List Rule) (s : List Char) :
    ∀ (fuel k : Nat) (stack : List String) (ts : List Token),
      lexLoop rules all s fuel k stack = .tokens ts →
      ∃ ts₀ off, ts = ts₀ ++ [finalToken off]
        ∧ ∀ t ∈ ts₀, ∃ r, r ∈ rulesFlat rules all ∧ ∃ cand, r.action cand = some t := by
  intro fuel
  induction fuel with
  | zero =>
    intro k stack ts h
    simp only [lexLoop] at h
    exact LexOutcome.noConfusion h
  | succ n ih =>
    intro k stack ts h
    simp only [lexLoop] at h
    by_cases hlt : k < s.length
    · simp only [if_pos hlt] at h
      cases hstk : stack.head? with
      | none =>
        simp only [hstk] at h
        injection h with h
        exact ⟨[], k, h.symm ▸ rfl, by intro t ht; exact absurd ht (List.not_mem_nil t)⟩
      | some g =>
        simp only [hstk] at h
        cases hlg : lookupGroup g rules with
        | none =>
          simp only [hlg] at h
          exact LexOutcome.noConfusion h
        | some curr =>
          simp only [hlg] at h
          split at h
          · exact ih k stack ts h
          · rename_i t no dp pu htr
            split at h
            · rename_i ts' hrec
              injection h with h
              subst h
              obtain ⟨ts₀, off, hts, hall⟩ := ih no _ ts' hrec
              subst hts
              refine ⟨t :: ts₀, off, rfl, ?_⟩
              intro x hx
              rcases List.mem_cons.mp hx with hx1 | hx2
              · subst hx1
                obtain ⟨r, hrmem, cand, hc⟩ :=
                  tryRules_yield_from_action (curr ++ all) s k x no dp pu htr
                refine ⟨r, ?_, cand, hc⟩
                rcases List.mem_append.mp hrmem with h1 | h2
                · exact List.mem_append_left _ (lookupGroup_sub g rules curr hlg r h1)
                · exact List.mem_append_right _ h2
              · exact hall x hx2
            · rename_i hne
              exact absurd h (hne ts)
    · simp only [if_neg hlt] at h
      injection h with h
      exact ⟨[], k, h.symm ▸ rfl, by intro t ht; exact absurd ht (List.not_mem_nil t)⟩

/-- Claim C7: every terminating token stream consists of action-produced
tokens followed by exactly one terminal FINAL token appended by the
engine; the k-th nextToken call succeeds exactly for k below the stream
length, and every call made after the FINAL token has been delivered
fails with LexEndedError. -/
theorem C7_final_and_exhaustion (rules : RuleTable) (all : List Rule)
    (s : List Char) (fuel k : Nat) (stack : List String) (ts : List Token)
    (h : lexLoop rules all s fuel k stack = .tokens ts) :
    (∃ ts₀ off, ts = ts₀ ++ [finalToken off]
      ∧ ∀ t ∈ ts₀, ∃ r, r ∈ rulesFlat rules all ∧ ∃ cand, r.action cand = some t)
    ∧ (∀ j, j < ts.length → ∃ t, nextToken ts j = .ok t)
    ∧ (∀ j, ts.length ≤ j → nextToken ts j = .error .lexEnded) := by
  refine ⟨lexLoop_shape rules all s fuel k stack ts h, ?_, ?_⟩
  · intro j hj
    cases hg : ts.get? j with
    | none =>
      have := List.get?_eq_none.mp hg
      omega
    | some t =>
      rw [List.get?_eq_getElem?] at hg
      exact ⟨t, by simp [nextToken, hg]⟩
  · intro j hj
    have hg : ts.get? j = none := List.get?_eq_none.mpr hj
    rw [List.get?_eq_getElem?] at hg
    simp [nextToken, hg]

/-- Witness for claim C7 at the C1 scenario run. -/
theorem C7_witness :
    (∃ ts₀ off, c1TokenList = ts₀ ++ [finalToken off]
      ∧ ∀ t ∈ ts₀, ∃ r, r ∈ rulesFlat c1Lexer.rules c1Lexer.ruleGroupAll
          ∧ ∃ cand, r.action cand = some t)
    ∧ (∀ j, j < c1TokenList.length → ∃ t, nextToken c1TokenList j = .ok t)
    ∧ (∀ j, c1TokenList.length ≤ j → nextToken c1TokenList j = .error .lexEnded) :=
  C7_final_and_exhaustion c1Lexer.rules c1Lexer.ruleGroupAll
    (String.data "12 34") 10 0 ["main"] c1TokenList rfl

/-! Inversion and construction lemmas for the rule compiler. -/

/-- A safely escapable literal compiles to the verbatim vy-flagged
sticky regex. -/
theorem toRx_ok_of (lit : String)
    (hsafe : ∀ c ∈ lit.data, rxMeta c = true → vValidEscape c = true) :
    toRx lit = .ok { source := rxEsc lit, flags := "vy",
                     matcher := matchLit lit.data } := by
  have hall : lit.data.all (fun c => ! rxMeta c || vValidEscape c) = true := by
    rw [List.all_eq_true]
    intro c hc
    cases hM : rxMeta c with
    | false => simp
    | true => simp [hsafe c hc hM]
  simp [toRx, hall]

/-- A literal holding a character whose escape is invalid under the v
flag makes the RegExp constructor throw. -/
theorem toRx_error_of (lit : String)
    (hbad : ∃ c ∈ lit.data, rxMeta c = true ∧ vValidEscape c = false) :
    ∃ m, toRx lit = .error (.rxSyntaxError m) := by
  obtain ⟨c, hc, hM, hV⟩ := hbad
  cases hall : lit.data.all (fun c => ! rxMeta c || vValidEscape c) with
  | true =>
    exfalso
    have h2 := List.all_eq_true.mp hall c hc
    rw [hM, hV] at h2
    simp at h2
  | false =>
    exact ⟨"invalid escape in unicode mode in " ++ rxEsc lit, by simp [toRx, hall]⟩

/-- A successfully built rule is exactly the record buildRule assembles
from the spec, with the successfully constructed regex. -/
theorem buildRule_ok_inv (sp : Spec) (g : String) (r : Rule)
    (h : buildRule sp g = .ok r) :
    ∃ rx, specRx sp = .ok rx
      ∧ r = { name := specName sp, rx := rx, action := specAction sp,
              group := g, push := specPush sp, pop := specPop sp } := by
  simp only [buildRule] at h
  split at h
  · exact Except.noConfusion h
  · rename_i rx hrx
    split at h
    · injection h with h
      exact ⟨rx, hrx, h.symm⟩
    · exact Except.noConfusion h

/-- When the spec's regex construction throws or its flag check fails,
buildRule reports an error. -/
theorem buildRule_error_of (sp : Spec) (g : String) (h : specOk sp = false) :
    ∃ e, buildRule sp g = .error e := by
  simp only [specOk] at h
  cases hrx : specRx sp with
  | error e => exact ⟨e, by simp [buildRule, hrx]⟩
  | ok rx =>
    simp only [hrx] at h
    exact ⟨.lexError ("invald regex flags for " ++ specName sp ++ " in " ++ g),
      by simp [buildRule, hrx, h]⟩

/-- When the spec's regex constructs and its flag check passes, buildRule
succeeds with the assembled record. -/
theorem buildRule_ok_of (sp : Spec) (g : String) (h : specOk sp = true) :
    ∃ rx, specRx sp = .ok rx
      ∧ buildRule sp g
        = .ok { name := specName sp, rx := rx, action := specAction sp,
                group := g, push := specPush sp, pop := specPop sp } := by
  simp only [specOk] at h
  cases hrx : specRx sp with
  | error e =>
    simp only [hrx] at h
    simp at h
  | ok rx =>
    simp only [hrx] at h
    exact ⟨rx, rfl, by simp [buildRule, hrx, h]⟩

/-- Every rule of a successfully built group comes from one spec of the
group. -/
theorem buildGroup_mem (g : String) : ∀ (sps : List Spec) (rs : List Rule),
    buildGroup g sps = .ok rs → ∀ r ∈ rs, ∃ sp ∈ sps, buildRule sp g = .ok r := by
  intro sps
  induction sps with
  | nil =>
    intro rs h r hr
    simp only [buildGroup] at h
    injection h with h
    subst h
    exact absurd hr (List.not_mem_nil r)
  | cons sp0 rest ih =>
    intro rs h r hr
    simp only [buildGroup] at h
    split at h
    · exact Except.noConfusion h
    · rename_i r0 hbr
      split at h
      · exact Except.noConfusion h
      · rename_i rs0 hbg
        injection h with h
        subst h
        rcases List.mem_cons.mp hr with h1 | h2
        · subst h1
          exact ⟨sp0, List.mem_cons_self sp0 rest, hbr⟩
        · obtain ⟨sp1, hmem, hb⟩ := ih rs0 hbg r h2
          exact ⟨sp1, List.mem_cons_of_mem _ hmem, hb⟩

/-- Every rule of a successfully built group carries the group it was
declared in. -/
theorem buildGroup_group (g : String) (sps : List Spec) (rs : List Rule)
    (h : buildGroup g sps = .ok rs) : ∀ r ∈ rs, r.group = g := by
  intro r hr
  obtain ⟨sp, _, hbr⟩ := buildGroup_mem g sps rs h r hr
  obtain ⟨rx, _, hrec⟩ := buildRule_ok_inv sp g r hbr
  rw [hrec]

/-- A group with a bad spec fails to build. -/
theorem buildGroup_error_of (g : String) :
    ∀ sps : List Spec, (∃ sp ∈ sps, specOk sp = false) →
      ∃ e, buildGroup g sps = .error e := by
  intro sps
  induction sps with
  | nil =>
    intro h
    obtain ⟨sp, hmem, _⟩ := h
    exact absurd hmem (List.not_mem_nil sp)
  | cons sp0 rest ih =>
    intro h
    obtain ⟨sp, hmem, hbad⟩ := h
    rcases List.mem_cons.mp hmem with h1 | h2
    · subst h1
      obtain ⟨e, he⟩ := buildRule_error_of sp g hbad
      exact ⟨e, by simp [buildGroup, he]⟩
    · cases hbr : buildRule sp0 g with
      | error e => exact ⟨e, by simp [buildGroup, hbr]⟩
      | ok r0 =>
        obtain ⟨e, he⟩ := ih ⟨sp, h2, hbad⟩
        exact ⟨e, by simp [buildGroup, hbr, he]⟩

/-- A group whose specs all lower without error builds successfully. -/
theorem buildGroup_ok_of (g : String) :
    ∀ sps : List Spec, (∀ sp ∈ sps, specOk sp = true) →
      ∃ rs, buildGroup g sps = .ok rs := by
  intro sps
  induction sps with
  | nil =>
    intro _
    exact ⟨[], rfl⟩
  | cons sp0 rest ih =>
    intro h
    obtain ⟨rs, hrs⟩ := ih (fun sp hsp => h sp (List.mem_cons_of_mem _ hsp))
    obtain ⟨rx0, hrx0, hbr⟩ := buildRule_ok_of sp0 g (h sp0 (List.mem_cons_self sp0 rest))
    refine ⟨{ name := specName sp0, rx := rx0, action := specAction sp0,
              group := g, push := specPush sp0, pop := specPop sp0 } :: rs, ?_⟩
    simp [buildGroup, hbr, hrs]

/-- A looked-up key of a successfully lowered table resolves to the group
built from the same key of the specs. -/
theorem buildGroups_lookup_some :
    ∀ (specs : Specs) (built : RuleTable), buildGroups specs = .ok built →
      ∀ (g : String) (curr : List Rule), lookupGroup g built = some curr →
        ∃ sps, lookupSpecs g specs = some sps ∧ buildGroup g sps = .ok curr := by
  intro specs
  induction specs with
  | nil =>
    intro built h g curr hlk
    simp only [buildGroups] at h
    injection h with h
    subst h
    exact Option.noConfusion hlk
  | cons p rest ih =>
    obtain ⟨n, sg⟩ := p
    intro built h g curr hlk
    simp only [buildGroups] at h
    split at h
    · exact Except.noConfusion h
    · rename_i rg hrg
      split at h
      · exact Except.noConfusion h
      · rename_i rs hrs
        injection h with h
        subst h
        simp only [lookupGroup] at hlk
        by_cases hn : n = g
        · rw [if_pos hn] at hlk
          injection hlk with hlk
          subst hlk
          subst hn
          exact ⟨sg, by simp [lookupSpecs], hrg⟩
        · rw [if_neg hn] at hlk
          obtain ⟨sps, hs, hb⟩ := ih rs hrs g curr hlk
          exact ⟨sps, by simp [lookupSpecs, hn, hs], hb⟩

/-- A key missing from a successfully lowered table is missing from the
specs. -/
theorem buildGroups_lookup_none :
    ∀ (specs : Specs) (built : RuleTable), buildGroups specs = .ok built →
      ∀ g : String, lookupGroup g built = none → lookupSpecs g specs = none := by
  intro specs
  induction specs with
  | nil =>
    intro built h g hlk
    rfl
  | cons p rest ih =>
    obtain ⟨n, sg⟩ := p
    intro built h g hlk
    simp only [buildGroups] at h
    split at h
    · exact Except.noConfusion h
    · rename_i rg hrg
      split at h
      · exact Except.noConfusion h
      · rename_i rs hrs
        injection h with h
        subst h
        simp only [lookupGroup] at hlk
        by_cases hn : n = g
        · rw [if_pos hn] at hlk
          exact Option.noConfusion hlk
        · rw [if_neg hn] at hlk
          simp only [lookupSpecs, if_neg hn]
          exact ih rs hrs g hlk

/-- Lowering preserves the keys and their order. -/
theorem buildGroups_keys :
    ∀ (specs : Specs) (built : RuleTable), buildGroups specs = .ok built →
      built.map Prod.fst = specs.map Prod.fst := by
  intro specs
  induction specs with
  | nil =>
    intro built h
    simp only [buildGroups] at h
    injection h with h
    subst h
    rfl
  | cons p rest ih =>
    obtain ⟨n, sg⟩ := p
    intro built h
    simp only [buildGroups] at h
    split at h
    · exact Except.noConfusion h
    · rename_i rg hrg
      split at h
      · exact Except.noConfusion h
      · rename_i rs hrs
        injection h with h
        subst h
        simp only [List.map_cons]
        rw [ih rs hrs]

/-- Every group of a successfully lowered table was built from the specs
group with the same key. -/
theorem buildGroups_mem :
    ∀ (specs : Specs) (built : RuleTable), buildGroups specs = .ok built →
      ∀ p ∈ built, ∃ q ∈ specs, q.1 = p.1 ∧ buildGroup p.1 q.2 = .ok p.2 := by
  intro specs
  induction specs with
  | nil =>
    intro built h p hp
    simp only [buildGroups] at h
    injection h with h
    subst h
    exact absurd hp (List.not_mem_nil p)
  | cons q0 rest ih =>
    obtain ⟨n, sg⟩ := q0
    intro built h p hp
    simp only [buildGroups] at h
    split at h
    · exact Except.noConfusion h
    · rename_i rg hrg
      split at h
      · exact Except.noConfusion h
      · rename_i rs hrs
        injection h with h
        subst h
        rcases List.mem_cons.mp hp with h1 | h2
        · subst h1
          exact ⟨(n, sg), List.mem_cons_self _ _, rfl, hrg⟩
        · obtain ⟨q, hq, hq1, hb⟩ := ih rs hrs p h2
          exact ⟨q, List.mem_cons_of_mem _ hq, hq1, hb⟩

/-- A member of the flattened table belongs to one of its groups. -/
theorem mem_groupsFlat :
    ∀ (t : RuleTable) (r : Rule), r ∈ groupsFlat t → ∃ p ∈ t, r ∈ p.2 := by
  intro t
  induction t with
  | nil =>
    intro r h
    exact absurd h (List.not_mem_nil r)
  | cons p rest ih =>
    intro r h
    obtain ⟨n, v⟩ := p
    simp only [groupsFlat] at h
    rcases List.mem_append.mp h with h1 | h2
    · exact ⟨(n, v), List.mem_cons_self _ _, h1⟩
    · obtain ⟨q, hq, hr⟩ := ih r h2
      exact ⟨q, List.mem_cons_of_mem _ hq, hr⟩

/-- Replacing the value at key ALL does not change lookups at other
keys. -/
theorem lookupGroup_map_replace (g : String) (hg : g ≠ "ALL") (x : List Rule) :
    ∀ t : RuleTable,
      lookupGroup g (t.map (fun p => if p.1 = "ALL" then ("ALL", x) else p))
        = lookupGroup g t := by
  intro t
  induction t with
  | nil => rfl
  | cons p rest ih =>
    obtain ⟨n, v⟩ := p
    simp only [List.map_cons]
    by_cases hn : n = "ALL"
    · subst hn
      rw [if_pos rfl]
      simp only [lookupGroup]
      rw [if_neg (fun hh => hg hh.symm), if_neg (fun hh => hg hh.symm)]
      exact ih
    · rw [if_neg hn]
      simp only [lookupGroup]
      by_cases hng : n = g
      · rw [if_pos hng, if_pos hng]
      · rw [if_neg hng, if_neg hng]
        exact ih

/-- Replacing the value at key ALL preserves the key list. -/
theorem map_replace_keys (x : List Rule) :
    ∀ t : RuleTable,
      (t.map (fun p => if p.1 = "ALL" then ("ALL", x) else p)).map Prod.fst
        = t.map Prod.fst := by
  intro t
  induction t with
  | nil => rfl
  | cons p rest ih =>
    obtain ⟨n, v⟩ := p
    simp only [List.map_cons, List.cons.injEq]
    constructor
    · by_cases hn : n = "ALL"
      · subst hn
        rw [if_pos rfl]
      · rw [if_neg hn]
    · exact ih

/-- A member of the flattened replaced table is in the replacement value
or in the flattened original table. -/
theorem groupsFlat_map_replace (x : List Rule) :
    ∀ (t : RuleTable) (r : Rule),
      r ∈ groupsFlat (t.map (fun p => if p.1 = "ALL" then ("ALL", x) else p)) →
      r ∈ x ∨ r ∈ groupsFlat t := by
  intro t
  induction t with
  | nil =>
    intro r h
    exact absurd h (List.not_mem_nil r)
  | cons p rest ih =>
    intro r h
    obtain ⟨n, v⟩ := p
    simp only [List.map_cons] at h
    by_cases hn : n = "ALL"
    · subst hn
      rw [if_pos rfl] at h
      simp only [groupsFlat] at h
      rcases List.mem_append.mp h with h1 | h2
      · exact Or.inl h1
      · rcases ih r h2 with h3 | h4
        · exact Or.inl h3
        · refine Or.inr ?_
          simp only [groupsFlat]
          exact List.mem_append_right _ h4
    · rw [if_neg hn] at h
      simp only [groupsFlat] at h
      rcases List.mem_append.mp h with h1 | h2
      · refine Or.inr ?_
        simp only [groupsFlat]
        exact List.mem_append_left _ h1
      · rcases ih r h2 with h3 | h4
        · exact Or.inl h3
        · refine Or.inr ?_
          simp only [groupsFlat]
          exact List.mem_append_right _ h4

/-- A key present in the key list of a table resolves. -/
theorem lookupGroup_isSome_of_key (g : String) :
    ∀ t : RuleTable, g ∈ t.map Prod.fst → (lookupGroup g t).isSome = true := by
  intro t
  induction t with
  | nil =>
    intro h
    exact absurd h (List.not_mem_nil g)
  | cons p rest ih =>
    intro h
    obtain ⟨n, v⟩ := p
    simp only [lookupGroup]
    by_cases hn : n = g
    · rw [if_pos hn]
      rfl
    · rw [if_neg hn]
      apply ih
      simp only [List.map_cons] at h
      rcases List.mem_cons.mp h with h1 | h2
      · exact absurd h1.symm hn
      · exact h2

/-- Inversion of a successful buildRules run: the lowered table, the
value of the applies-everywhere list, the ALL-replacement shape of the
final table, and the passed push check. -/
theorem buildRulesE_inv (specs : Specs) (rules : RuleTable) (all : List Rule)
    (h : buildRulesE specs = .ok (rules, all)) :
    ∃ built, buildGroups specs = .ok built
      ∧ all = (lookupGroup "ALL" built).getD [] ++ [INVALID]
      ∧ rules = built.map (fun p => if p.1 = "ALL" then ("ALL", all) else p)
      ∧ badPushRule rules = none := by
  simp only [buildRulesE] at h
  cases hbg : buildGroups specs with
  | error e =>
    rw [hbg] at h
    exact Except.noConfusion h
  | ok built =>
    rw [hbg] at h
    simp only at h
    split at h
    · exact Except.noConfusion h
    · rename_i hbp
      injection h with h2
      injection h2 with h3 h4
      subst h4
      subst h3
      exact ⟨built, rfl, rfl, rfl, hbp⟩

/-- A spec table holding a bad spec fails to lower. -/
theorem buildGroups_error_of :
    ∀ specs : Specs, (∃ p ∈ specs, ∃ sp ∈ p.2, specOk sp = false) →
      ∃ e, buildGroups specs = .error e := by
  intro specs
  induction specs with
  | nil =>
    intro h
    obtain ⟨p, hmem, _⟩ := h
    exact absurd hmem (List.not_mem_nil p)
  | cons p0 rest ih =>
    intro h
    obtain ⟨p, hmem, sp, hsp, hbad⟩ := h
    obtain ⟨n, sg⟩ := p0
    rcases List.mem_cons.mp hmem with h1 | h2
    · subst h1
      obtain ⟨e, he⟩ := buildGroup_error_of n sg ⟨sp, hsp, hbad⟩
      exact ⟨e, by simp [buildGroups, he]⟩
    · cases hbg : buildGroup n sg with
      | error e => exact ⟨e, by simp [buildGroups, hbg]⟩
      | ok rg =>
        obtain ⟨e, he⟩ := ih ⟨p, h2, sp, hsp, hbad⟩
        exact ⟨e, by simp [buildGroups, hbg, he]⟩

/-- A spec table whose specs all lower without error lowers
successfully. -/
theorem buildGroups_ok_of :
    ∀ specs : Specs, (∀ p ∈ specs, ∀ sp ∈ p.2, specOk sp = true) →
      ∃ built, buildGroups specs = .ok built := by
  intro specs
  induction specs with
  | nil =>
    intro _
    exact ⟨[], rfl⟩
  | cons p0 rest ih =>
    intro h
    obtain ⟨n, sg⟩ := p0
    obtain ⟨rg, hrg⟩ := buildGroup_ok_of n sg
      (fun sp hsp => h (n, sg) (List.mem_cons_self _ _) sp hsp)
    obtain ⟨rs, hrs⟩ := ih (fun p hp sp hsp => h p (List.mem_cons_of_mem _ hp) sp hsp)
    exact ⟨(n, rg) :: rs, by simp [buildGroups, hrg, hrs]⟩

/-- A rule of a group of a table belongs to the flattened table. -/
theorem mem_groupsFlat_of_entry :
    ∀ (t : RuleTable) (p : String × List Rule) (r : Rule),
      p ∈ t → r ∈ p.2 → r ∈ groupsFlat t := by
  intro t
  induction t with
  | nil =>
    intro p r hp _
    exact absurd hp (List.not_mem_nil p)
  | cons q rest ih =>
    intro p r hp hr
    obtain ⟨n, v⟩ := q
    simp only [groupsFlat]
    rcases List.mem_cons.mp hp with h1 | h2
    · subst h1
      exact List.mem_append_left _ hr
    · exact List.mem_append_right _ (ih p r h2 hr)

/-- In a table with JS-unique keys (object keys are unique), lookup of a
member entry's key returns that entry's value. -/
theorem lookupGroup_of_mem_nodup :
    ∀ t : RuleTable, (t.map Prod.fst).Nodup →
      ∀ (n : String) (v : List Rule), (n, v) ∈ t → lookupGroup n t = some v := by
  intro t
  induction t with
  | nil =>
    intro _ n v hmem
    exact absurd hmem (List.not_mem_nil _)
  | cons p rest ih =>
    intro hnd n v hmem
    obtain ⟨m, w⟩ := p
    simp only [List.map_cons, List.nodup_cons] at hnd
    obtain ⟨hm_notin, hnd_rest⟩ := hnd
    rcases List.mem_cons.mp hmem with h1 | h2
    · injection h1 with hn hv
      subst hn
      subst hv
      simp [lookupGroup]
    · simp only [lookupGroup]
      by_cases hmn : m = n
      · subst hmn
        exact absurd (List.mem_map.mpr ⟨(m, v), h2, rfl⟩) hm_notin
      · rw [if_neg hmn]
        exact ih hnd_rest n v h2

/-- A key absent from the key list of a table does not resolve. -/
theorem lookupGroup_eq_none_of_not_key (g : String) :
    ∀ t : RuleTable, g ∉ t.map Prod.fst → lookupGroup g t = none := by
  intro t
  induction t with
  | nil =>
    intro _
    rfl
  | cons p rest ih =>
    intro h
    obtain ⟨n, v⟩ := p
    simp only [List.map_cons, List.mem_cons] at h
    push_neg at h
    obtain ⟨h1, h2⟩ := h
    simp only [lookupGroup]
    rw [if_neg (fun hh => h1 hh.symm)]
    exact ih h2

/-- Every spec of a successfully built group lowers to one of its
rules. -/
theorem buildGroup_mem_fwd (g : String) : ∀ (sps : List Spec) (rs : List Rule),
    buildGroup g sps = .ok rs → ∀ sp ∈ sps, ∃ r ∈ rs, buildRule sp g = .ok r := by
  intro sps
  induction sps with
  | nil =>
    intro rs h sp hsp
    exact absurd hsp (List.not_mem_nil sp)
  | cons sp0 rest ih =>
    intro rs h sp hsp
    simp only [buildGroup] at h
    split at h
    · exact Except.noConfusion h
    · rename_i r0 hbr
      split at h
      · exact Except.noConfusion h
      · rename_i rs0 hbg
        injection h with h
        subst h
        rcases List.mem_cons.mp hsp with h1 | h2
        · subst h1
          exact ⟨r0, List.mem_cons_self _ _, hbr⟩
        · obtain ⟨r, hr, hb⟩ := ih rs0 hbg sp h2
          exact ⟨r, List.mem_cons_of_mem _ hr, hb⟩

/-- Every spec of a successfully lowered table lowers to a rule of the
flattened lowered table. -/
theorem buildGroups_mem_fwd :
    ∀ (specs : Specs) (built : RuleTable), buildGroups specs = .ok built →
      ∀ p ∈ specs, ∀ sp ∈ p.2,
        ∃ r, buildRule sp p.1 = .ok r ∧ r ∈ groupsFlat built := by
  intro specs
  induction specs with
  | nil =>
    intro built h p hp sp hsp
    exact absurd hp (List.not_mem_nil p)
  | cons p0 rest ih =>
    obtain ⟨n, sg⟩ := p0
    intro built h p hp sp hsp
    simp only [buildGroups] at h
    split at h
    · exact Except.noConfusion h
    · rename_i rg hrg
      split at h
      · exact Except.noConfusion h
      · rename_i rs hrs
        injection h with h
        subst h
        rcases List.mem_cons.mp hp with h1 | h2
        · subst h1
          obtain ⟨r, hr, hb⟩ := buildGroup_mem_fwd n sg rg hrg sp hsp
          refine ⟨r, hb, ?_⟩
          simp only [groupsFlat]
          exact List.mem_append_left _ hr
        · obtain ⟨r, hb, hflat⟩ := ih rs hrs p h2 sp hsp
          refine ⟨r, hb, ?_⟩
          simp only [groupsFlat]
          exact List.mem_append_right _ hflat

/-- A successful buildRules run whose table starts with a known head key
makes compileLexer succeed with that key as start group. -/
theorem compileLexer_ok_of (specs : Specs) (b : Bool) (rules : RuleTable)
    (all : List Rule) (n0 : String) (g0 : List Rule)
    (hbrE : buildRulesE specs = .ok (rules, all))
    (hhead : rules.head? = some (n0, g0)) :
    compileLexer specs b
      = .ok { rules := rules, ruleGroupAll := all, start := n0, dbg := b } := by
  simp only [compileLexer, hbrE, hhead]

/-- Claim C6: the effective rule sequence of a scan step is the current
context's own rules in declared order, then the declared ALL rules in
order, then the synthetic INVALID catch-all last; the for loop decides on
the earliest segment that yields, and the first rule that matches with
non-empty length and whose action returns a token wins outright. -/
theorem C6_rule_precedence (specs : Specs) (rules : RuleTable) (all : List Rule)
    (h : buildRulesE specs = .ok (rules, all)) :
    (∃ allDecl, buildGroup "ALL" ((lookupSpecs "ALL" specs).getD []) = .ok allDecl
      ∧ all = allDecl ++ [INVALID])
    ∧ (∀ (g : String) (curr : List Rule), g ≠ "ALL" → lookupGroup g rules = some curr →
        ∃ sps, lookupSpecs g specs = some sps ∧ buildGroup g sps = .ok curr)
    ∧ (∀ (l₁ l₂ : List Rule) (s : List Char) (off : Nat),
        tryRules (l₁ ++ l₂) s off =
          match tryRules l₁ s off with
          | .fellThrough => tryRules l₂ s off
          | res => res)
    ∧ (∀ (r : Rule) (rest : List Rule) (s : List Char) (off n : Nat) (t : Token),
        r.rx.matcher s off = some (n + 1) →
        r.action (candToken r s off (n + 1)) = some t →
        tryRules (r :: rest) s off = .yielded t (off + (n + 1)) r.pop r.push) := by
  obtain ⟨built, hbg, hall, hrules, hbp⟩ := buildRulesE_inv specs rules all h
  refine ⟨?_, ?_, fun l₁ l₂ s off => tryRules_append l₁ l₂ s off, ?_⟩
  · cases hl : lookupGroup "ALL" built with
    | some l =>
      obtain ⟨sps, hsp, hbgr⟩ := buildGroups_lookup_some specs built hbg "ALL" l hl
      refine ⟨l, ?_, ?_⟩
      · rw [hsp]
        exact hbgr
      · rw [hall, hl]
        rfl
    | none =>
      have hn := buildGroups_lookup_none specs built hbg "ALL" hl
      refine ⟨[], ?_, ?_⟩
      · rw [hn]
        rfl
      · rw [hall, hl]
        rfl
  · intro g curr hgne hlk
    rw [hrules, lookupGroup_map_replace g hgne all built] at hlk
    exact buildGroups_lookup_some specs built hbg g curr hlk
  · intro r rest s off n t hm ha
    simp only [tryRules, hm, ha]

/-- Witness for claim C6 at the C1 scenario specs. -/
theorem C6_witness :
    tryRules ([INVALID] ++ []) (String.data "ab") 0 =
      match tryRules [INVALID] (String.data "ab") 0 with
      | .fellThrough => tryRules [] (String.data "ab") 0
      | res => res :=
  (C6_rule_precedence c1Specs c1Built.1 c1Built.2 rfl).2.2.1 [INVALID] []
    (String.data "ab") 0

/-- Claim C10: a candidate token built by makeToken carries the group of
the rule that matched, never the context at the front of the stack (it is
built from the rule alone); in particular every rule of the
applies-everywhere list, the synthetic INVALID catch-all included,
carries group ALL. -/
theorem C10_group_from_rule (specs : Specs) (rules : RuleTable) (all : List Rule)
    (h : buildRulesE specs = .ok (rules, all)) :
    (∀ (r : Rule) (s : List Char) (off n : Nat), (candToken r s off n).group = r.group)
    ∧ (∀ r ∈ all, r.group = "ALL") := by
  obtain ⟨built, hbg, hall, hrules, hbp⟩ := buildRulesE_inv specs rules all h
  refine ⟨fun r s off n => rfl, ?_⟩
  intro r hr
  rw [hall] at hr
  rcases List.mem_append.mp hr with h1 | h2
  · cases hl : lookupGroup "ALL" built with
    | none =>
      rw [hl] at h1
      exact absurd h1 (List.not_mem_nil r)
    | some l =>
      rw [hl] at h1
      obtain ⟨sps, hsp, hbgr⟩ := buildGroups_lookup_some specs built hbg "ALL" l hl
      exact buildGroup_group "ALL" sps l hbgr r h1
  · have h3 : r = INVALID := by simpa using h2
    subst h3
    rfl

/-- Witness for claim C10 at the C1 scenario specs and the catch-all. -/
theorem C10_witness : INVALID.group = "ALL" :=
  (C10_group_from_rule c1Specs c1Built.1 c1Built.2 rfl).2 INVALID
    (List.mem_cons_self INVALID [])

/-- Claim C8, counterexample: the regex one-or-more digits with the
sticky flag y alone has exactly the anchored match-at-offset semantics of
the accepted vy version (identical matcher), yet compileLexer rejects it
with the flag compile error, while the vy version is accepted; so sticky
semantics alone does not make a pattern acceptable. -/
theorem C8_counterexample :
    numRxStickyOnly.matcher = numRx.matcher
    ∧ compileLexer [("main", [[SpecItem.str "NUM", SpecItem.rx numRxStickyOnly]])] false
        = .error (.lexError "invald regex flags for NUM in main")
    ∧ (∃ l, compileLexer [("main", [[SpecItem.str "NUM", SpecItem.rx numRx]])] false
        = .ok l) :=
  ⟨rfl, rfl, ⟨_, rfl⟩⟩

/-- Claim C8, amended: compileLexer fails for exactly these specs: an
empty spec table (LexError empty spec); a literal-string spec whose name
contains a character that rxEsc escapes but that is not a valid identity
escape under the v flag (dash, bang, angle brackets, equals sign, hash,
comma or whitespace), making the RegExp constructor throw a SyntaxError
that compileLexer does not catch; a regex spec whose toString does not
end in slash-v-y (flags other than exactly vy; sticky y alone is
rejected); or a push target naming no declared context (a LexError, for
tables with JS-unique keys). Conversely a non-empty table whose specs
all lower without error and whose push targets all resolve compiles
successfully, and an accepted literal spec becomes a vy-flagged sticky
pattern matching the string verbatim. -/
theorem C8_compile_conditions :
    (∀ b : Bool, compileLexer [] b = .error (.lexError "empty spec"))
    ∧ (∀ lit : String, (∀ c ∈ lit.data, rxMeta c = true → vValidEscape c = true) →
        toRx lit = .ok { source := rxEsc lit, flags := "vy",
                         matcher := matchLit lit.data }
        ∧ jsEndsWith (rxToString { source := rxEsc lit, flags := "vy",
                                    matcher := matchLit lit.data }) "/vy" = true)
    ∧ (∀ lit : String, (∃ c ∈ lit.data, rxMeta c = true ∧ vValidEscape c = false) →
        ∃ m, toRx lit = .error (.rxSyntaxError m))
    ∧ (∀ (sp : Spec) (g : String), (sp.get? 1).bind itemRx = none →
        (∃ c ∈ (specName sp).data, rxMeta c = true ∧ vValidEscape c = false) →
        ∃ m, buildRule sp g = .error (.rxSyntaxError m))
    ∧ (∀ (specs : Specs) (b : Bool),
        (∃ p ∈ specs, ∃ sp ∈ p.2, specOk sp = false) →
        ∃ e, compileLexer specs b = .error e)
    ∧ (∀ (specs : Specs) (b : Bool), (specs.map Prod.fst).Nodup →
        (∀ p ∈ specs, ∀ sp ∈ p.2, specOk sp = true) →
        (∃ p ∈ specs, ∃ sp ∈ p.2, ∃ tgt : String, specPush sp = some tgt
          ∧ tgt ∉ specs.map Prod.fst) →
        ∃ m, compileLexer specs b = .error (.lexError m))
    ∧ (∀ (specs : Specs) (b : Bool), specs ≠ [] →
        (∀ p ∈ specs, ∀ sp ∈ p.2, specOk sp = true) →
        (∀ p ∈ specs, ∀ sp ∈ p.2, ∀ tgt : String, specPush sp = some tgt →
          tgt ∈ specs.map Prod.fst) →
        ∃ l, compileLexer specs b = .ok l) := by
  refine ⟨fun b => rfl, ?_, ?_, ?_, ?_, ?_, ?_⟩
  · intro lit hsafe
    refine ⟨toRx_ok_of lit hsafe, ?_⟩
    simp only [jsEndsWith, rxToString, String.data_append]
    rw [List.isSuffixOf_iff_suffix]
    refine ⟨("/" : String).data ++ (rxEsc lit).data, ?_⟩
    simp [List.append_assoc]
  · intro lit hbad
    exact toRx_error_of lit hbad
  · intro sp g hlit hbad
    obtain ⟨m, hm⟩ := toRx_error_of (specName sp) hbad
    have hsrx : specRx sp = .error (.rxSyntaxError m) := by
      simp only [specRx, hlit, hm]
    exact ⟨m, by simp [buildRule, hsrx]⟩
  · intro specs b hbad
    obtain ⟨e, he⟩ := buildGroups_error_of specs hbad
    exact ⟨e, by simp [compileLexer, buildRulesE, he]⟩
  · intro specs b hnd hok hbadpush
    obtain ⟨built, hbg⟩ := buildGroups_ok_of specs hok
    obtain ⟨p, hp, sp, hsp, tgt, htgt, hnotkey⟩ := hbadpush
    obtain ⟨r, hbr, hrflat⟩ := buildGroups_mem_fwd specs built hbg p hp sp hsp
    obtain ⟨rx0, hrx0, hrec⟩ := buildRule_ok_inv sp p.1 r hbr
    have hrpush : r.push = some tgt := by
      rw [hrec]
      exact htgt
    have hkeys := buildGroups_keys specs built hbg
    have hndb : (built.map Prod.fst).Nodup := by
      rw [hkeys]
      exact hnd
    obtain ⟨q, hq, hrq⟩ := mem_groupsFlat built r hrflat
    have hrmem2 : r ∈ groupsFlat (built.map (fun p => if p.1 = "ALL"
        then ("ALL", (lookupGroup "ALL" built).getD [] ++ [INVALID]) else p)) := by
      by_cases hq1 : q.1 = "ALL"
      · have hlq : lookupGroup "ALL" built = some q.2 := by
          rw [← hq1]
          exact lookupGroup_of_mem_nodup built hndb q.1 q.2 hq
        refine mem_groupsFlat_of_entry _
          ("ALL", (lookupGroup "ALL" built).getD [] ++ [INVALID]) r ?_ ?_
        · exact List.mem_map.mpr ⟨q, hq, by simp [hq1]⟩
        · rw [hlq]
          exact List.mem_append_left _ hrq
      · refine mem_groupsFlat_of_entry _ q r ?_ hrq
        exact List.mem_map.mpr ⟨q, hq, by simp [hq1]⟩
    have hpushbad : pushOk (built.map (fun p => if p.1 = "ALL"
        then ("ALL", (lookupGroup "ALL" built).getD [] ++ [INVALID]) else p)) r
        = false := by
      simp only [pushOk, hrpush]
      have hln : lookupGroup tgt (built.map (fun p => if p.1 = "ALL"
          then ("ALL", (lookupGroup "ALL" built).getD [] ++ [INVALID]) else p))
          = none := by
        apply lookupGroup_eq_none_of_not_key
        rw [map_replace_keys ((lookupGroup "ALL" built).getD [] ++ [INVALID]) built,
          hkeys]
        exact hnotkey
      simp [hln]
    cases hfind2 : badPushRule (built.map (fun p => if p.1 = "ALL"
        then ("ALL", (lookupGroup "ALL" built).getD [] ++ [INVALID]) else p)) with
    | none =>
      exfalso
      have hnp := List.find?_eq_none.mp hfind2 r hrmem2
      rw [hpushbad] at hnp
      simp at hnp
    | some rbad =>
      exact ⟨"no push " ++ rbad.push.getD "" ++ " found for "
          ++ rbad.name ++ " in " ++ rbad.group,
        by simp [compileLexer, buildRulesE, hbg, hfind2]⟩
  · intro specs b hne hflags hpush
    obtain ⟨built, hbg⟩ := buildGroups_ok_of specs hflags
    have hkeys := buildGroups_keys specs built hbg
    have hpob : ∀ r ∈ groupsFlat built,
        pushOk (built.map (fun p => if p.1 = "ALL"
          then ("ALL", (lookupGroup "ALL" built).getD [] ++ [INVALID]) else p)) r
          = true := by
      intro r hrb
      obtain ⟨p, hp, hrp⟩ := mem_groupsFlat built r hrb
      obtain ⟨q, hq, hq1, hbgq⟩ := buildGroups_mem specs built hbg p hp
      obtain ⟨sp, hsp, hbr⟩ := buildGroup_mem p.1 q.2 p.2 hbgq r hrp
      obtain ⟨rx0, hrx0, hrec⟩ := buildRule_ok_inv sp p.1 r hbr
      have hpe : r.push = specPush sp := by
        rw [hrec]
      cases hps : r.push with
      | none => simp [pushOk, hps]
      | some tgt =>
        rw [hps] at hpe
        have hkey := hpush q hq sp hsp tgt hpe.symm
        rw [← hkeys] at hkey
        rw [← map_replace_keys ((lookupGroup "ALL" built).getD [] ++ [INVALID]) built]
          at hkey
        simp only [pushOk, hps]
        exact lookupGroup_isSome_of_key tgt _ hkey
    have hbp : badPushRule (built.map (fun p => if p.1 = "ALL"
        then ("ALL", (lookupGroup "ALL" built).getD [] ++ [INVALID]) else p))
        = none := by
      apply List.find?_eq_none.mpr
      intro r hr
      rcases groupsFlat_map_replace _ built r hr with hx | hb
      · rcases List.mem_append.mp hx with hdecl | hinv
        · have hex : ∃ l, lookupGroup "ALL" built = some l ∧ r ∈ l := by
            cases hl : lookupGroup "ALL" built with
            | none =>
              rw [hl] at hdecl
              exact absurd hdecl (List.not_mem_nil r)
            | some l =>
              rw [hl] at hdecl
              exact ⟨l, rfl, hdecl⟩
          obtain ⟨l, hl, hrl⟩ := hex
          have hrb : r ∈ groupsFlat built := lookupGroup_sub "ALL" built l hl r hrl
          simp [hpob r hrb]
        · have h3 : r = INVALID := by simpa using hinv
          subst h3
          simp [pushOk, INVALID]
      · simp [hpob r hb]
    have hbrE : buildRulesE specs = .ok
        (built.map (fun p => if p.1 = "ALL"
          then ("ALL", (lookupGroup "ALL" built).getD [] ++ [INVALID]) else p),
         (lookupGroup "ALL" built).getD [] ++ [INVALID]) := by
      simp only [buildRulesE, hbg, hbp]
    cases hbl : built with
    | nil =>
      exfalso
      rw [hbl] at hkeys
      cases hspecs : specs with
      | nil => exact hne hspecs
      | cons p0 srest =>
        rw [hspecs] at hkeys
        simp at hkeys
    | cons q0 brest =>
      rw [hbl] at hbrE
      exact ⟨_, compileLexer_ok_of specs b _ _ _ _ hbrE rfl⟩

/-- Witness for claim C8: the C1 scenario specs satisfy the acceptance
conditions and compile successfully. -/
theorem C8_witness : ∃ l, compileLexer c1Specs true = .ok l :=
  C8_compile_conditions.2.2.2.2.2.2 c1Specs true (List.cons_ne_nil _ _)
    (by decide)
    (by
      intro p hp sp hsp tgt htgt
      simp only [c1Specs, List.mem_cons, List.not_mem_nil, or_false] at hp
      subst hp
      simp only [List.mem_cons, List.not_mem_nil, or_false] at hsp
      rcases hsp with h1 | h1
      · subst h1
        have hnone : specPush [SpecItem.str "NUM", SpecItem.rx numRx] = none := rfl
        rw [hnone] at htgt
        exact Option.noConfusion htgt
      · subst h1
        have hnone : specPush
            [SpecItem.str "WS", SpecItem.rx wsRx, SpecItem.act skipAction] = none := rfl
        rw [hnone] at htgt
        exact Option.noConfusion htgt)

end Atto
